import Mathlib

/-!
Verification of the witness-name normalization, exclusion and aggregation
core of the "Witness Witness" hearing explorer.

The definitions below are a shallow embedding of the explorer script
(the version embedded in `witnessWitness/README.md`, whose aggregation
pipeline also subsumes the earlier standalone `script.js` variant):

* `nameToKey`          — the map-key normalizer (lowercase, collapse runs of
                         whitespace to single spaces, trim);
* `normaliseNameKey`   — the rich normalizer used by the exclusion filter
                         (parenthetical and party-state stripping, accent
                         stripping, tokenisation, honorific/suffix removal,
                         trailing-location-phrase removal);
* `shouldIncludeWitness` and friends — the exclusion filter;
* `buildWitnessMap`    — the aggregator (fold over hearings with per-hearing
                         de-duplication, then the exclusion filter);
* `sortedWitnesses`    — the final sorted list exposed to callers.

Strings are modelled as Lean `String`s (lists of Unicode scalar values);
JavaScript string lengths (UTF-16 units) coincide with `String.length` on
the scalar values that occur in this data.  JavaScript `Map`s and `Set`s are
modelled as insertion-ordered lists, matching the iteration order the
script relies on.
-/

namespace WitnessWitness

/-! ## Character classes -/

/-- JavaScript `\s` (the whitespace class used by `/\s+/`, `trim`,
and `split`): space, tab, LF, VT, FF, CR, NBSP, Ogham space mark, the
U+2000–U+200A range, LS, PS, NNBSP, MMSP, ideographic space and BOM. -/
def isJsWhitespace (c : Char) : Bool :=
  let n := c.toNat
  n == 32 || n == 9 || n == 10 || n == 11 || n == 12 || n == 13 ||
  n == 160 || n == 5760 || (8192 ≤ n && n ≤ 8202) || n == 8232 ||
  n == 8233 || n == 8239 || n == 8287 || n == 12288 || n == 65279

/-- `String.prototype.toLowerCase`, modelled on the ASCII range (the only
characters that survive the cleaning passes where case matters):
`Char.toLower` lowers exactly the basic latin capitals. -/
def jsToLower (c : Char) : Char := c.toLower

/-- `String.prototype.toUpperCase`, modelled on the ASCII range:
`Char.toUpper` raises exactly the basic latin smalls. -/
def jsToUpper (c : Char) : Char := c.toUpper

/-- ASCII upper-case letter (`[A-Z]`). -/
def isUpperAZ (c : Char) : Bool := 'A' ≤ c && c ≤ 'Z'

/-- ASCII letter (`[A-Za-z]`). -/
def isAsciiLetter (c : Char) : Bool :=
  ('A' ≤ c && c ≤ 'Z') || ('a' ≤ c && c ≤ 'z')

/-- JavaScript regex word character (`\w`, used by `\b` boundaries):
`[A-Za-z0-9_]`. -/
def isWordChar (c : Char) : Bool :=
  isAsciiLetter c || ('0' ≤ c && c ≤ '9') || c == '_'

/-! ## `nameToKey` — the map-key normalizer

`function nameToKey(name) \x7b
   return name ? name.toLowerCase().replace(/\s+/g, ' ').trim() : '';
 \x7d` -/

/-- `replace(/\s+/g, ' ')`: each maximal run of whitespace becomes a
single space.  `prevWs` records whether the previous character was part of
a whitespace run already replaced. -/
def collapseWsAux : Bool → List Char → List Char
  | _, [] => []
  | prevWs, c :: rest =>
    if isJsWhitespace c then
      if prevWs then collapseWsAux true rest
      else ' ' :: collapseWsAux true rest
    else c :: collapseWsAux false rest

def collapseWs (l : List Char) : List Char := collapseWsAux false l

/-- `String.prototype.trim`: drop leading and trailing whitespace. -/
def trimWs (l : List Char) : List Char :=
  ((l.dropWhile isJsWhitespace).reverse.dropWhile isJsWhitespace).reverse

/-- The map-key normalizer: lowercase, collapse whitespace runs to single
spaces, trim.  A falsy (empty) input yields the empty key. -/
def nameToKey (name : String) : String :=
  if name = "" then ""
  else ⟨trimWs (collapseWs (name.data.map jsToLower))⟩

/-- The JS function also returns the empty key for non-string (null or
undefined) arguments, via the same falsiness test; `none` models those. -/
def nameToKeyOpt : Option String → String
  | none => ""
  | some s => nameToKey s

/-! ## Token tables of the rich normalizer and the exclusion filter -/

/-- `NAME_TITLE_TOKENS`: honorific/role tokens removed from keys. -/
def nameTitleTokens : List String :=
  ["the", "sen", "senator", "rep", "representative", "delegate",
   "commissioner", "chair", "chairman", "chairwoman", "ranking", "member",
   "hon", "honorable", "mr", "mrs", "ms", "miss", "dr", "prof", "reverend",
   "rev", "sir", "madam", "mayor", "governor"]

/-- `NAME_SUFFIX_TOKENS`: name suffixes removed from keys. -/
def nameSuffixTokens : List String := ["jr", "sr", "ii", "iii", "iv", "v"]

/-- `LOCATION_KEYWORDS`: tokens that may introduce a trailing location
phrase. -/
def locationKeywords : List String := ["of", "for", "from"]

/-- `LOCATION_TOKENS`: the closed vocabulary a trailing location phrase
must be drawn from. -/
def locationTokens : List String :=
  ["of", "the", "state", "commonwealth", "territory", "district", "columbia",
   "washington", "dc", "united", "states", "america", "at", "large",
   "puerto", "rico", "virgin", "islands", "northern", "mariana", "guam",
   "samoa", "american", "alabama", "alaska", "arizona", "arkansas",
   "california", "colorado", "connecticut", "delaware", "florida", "georgia",
   "hawaii", "idaho", "illinois", "indiana", "iowa", "kansas", "kentucky",
   "louisiana", "maine", "maryland", "massachusetts", "michigan",
   "minnesota", "mississippi", "missouri", "montana", "nebraska", "nevada",
   "new", "hampshire", "jersey", "mexico", "york", "north", "carolina",
   "dakota", "south", "ohio", "oklahoma", "oregon", "pennsylvania", "rhode",
   "island", "tennessee", "texas", "utah", "vermont", "virginia", "west",
   "wisconsin", "wyoming"]

/-- `NON_NAME_TOKENS`: scraping-boilerplate fragments that disqualify an
entry. -/
def nonNameTokens : List String :=
  ["available", "briefing", "click", "closing", "committee", "document",
   "full", "hearing", "here", "link", "materials", "opening", "press",
   "release", "report", "statement", "submission", "submitted", "summary",
   "testimony", "transcript", "video", "webcast", "written"]

/-! ## `normaliseNameKey` — the rich normalizer

`text.replace(/\([^)]*\)/g, ' ')` then `replace(/\b[RID]-[A-Z]\x7b2\x7d\b/g, ' ')`,
NFD accent stripping, `replace(/[^A-Za-z\s'-]/g, ' ')`, lowercase,
whitespace tokenisation, drop one-character tokens and title/suffix
tokens, drop a trailing location phrase, join with single spaces. -/

/-- `replace(/\([^)]*\)/g, ' ')`: each `(` followed (without another `)`
intervening — the class `[^)]` also admits `(`) by a first `)` is replaced,
together with the enclosed text, by one space; an unclosed `(` is kept
literally.  `pending = some buf` holds the scanned-but-undecided segment
(reversed) starting at the last candidate `(`. -/
def removeParensAux : Option (List Char) → List Char → List Char
  | none, [] => []
  | some buf, [] => buf.reverse
  | none, c :: rest =>
    if c = '(' then removeParensAux (some ['(']) rest
    else c :: removeParensAux none rest
  | some buf, c :: rest =>
    if c = ')' then ' ' :: removeParensAux none rest
    else removeParensAux (some (c :: buf)) rest

def removeParens (l : List Char) : List Char := removeParensAux none l

/-- A `\b` word-boundary test against the optional adjacent character:
satisfied at the ends of the string and next to non-word characters. -/
def boundaryNonWord : Option Char → Bool
  | none => true
  | some q => !isWordChar q

/-- `replace(/\b[RID]-[A-Z]\x7b2\x7d\b/g, ' ')`: a party letter, hyphen and
two-letter state code delimited by word boundaries is replaced by a space.
`prev` is the character preceding the scan position (`none` at the start);
after a replacement the following character is necessarily a non-word
character, so resuming with a space as `prev` is faithful.  The `fuel`
argument (instantiated with the list length) only drives the structural
recursion; each step consumes at least one character. -/
def stripPartyStateAux : Nat → Option Char → List Char → List Char
  | 0, _, l => l
  | _ + 1, _, [] => []
  | fuel + 1, prev, p :: rest =>
    match rest with
    | '-' :: a :: b :: rest' =>
      if (p == 'R' || p == 'I' || p == 'D') && isUpperAZ a && isUpperAZ b &&
          boundaryNonWord prev && boundaryNonWord rest'.head? then
        ' ' :: stripPartyStateAux fuel (some ' ') rest'
      else
        p :: stripPartyStateAux fuel (some p) rest
    | _ => p :: stripPartyStateAux fuel (some p) rest

def stripPartyState (l : List Char) : List Char :=
  stripPartyStateAux l.length none l

/-- `.normalize('NFD').replace(/[̀-ͯ]/g, '')`: canonical
decomposition followed by removal of combining marks.  Modelled over the
Latin-1 letters occurring in the data: an accented Latin letter decomposes
into its base letter plus combining marks, which the replacement deletes;
a pre-existing combining mark is deleted; characters without a canonical
decomposition are unchanged. -/
def nfdStripMarks (c : Char) : List Char :=
  let n := c.toNat
  if 0x300 ≤ n ∧ n ≤ 0x36F then []
  else if 0xC0 ≤ n ∧ n ≤ 0xC5 then ['A']
  else if n = 0xC7 then ['C']
  else if 0xC8 ≤ n ∧ n ≤ 0xCB then ['E']
  else if 0xCC ≤ n ∧ n ≤ 0xCF then ['I']
  else if n = 0xD1 then ['N']
  else if 0xD2 ≤ n ∧ n ≤ 0xD6 then ['O']
  else if 0xD9 ≤ n ∧ n ≤ 0xDC then ['U']
  else if n = 0xDD then ['Y']
  else if 0xE0 ≤ n ∧ n ≤ 0xE5 then ['a']
  else if n = 0xE7 then ['c']
  else if 0xE8 ≤ n ∧ n ≤ 0xEB then ['e']
  else if 0xEC ≤ n ∧ n ≤ 0xEF then ['i']
  else if n = 0xF1 then ['n']
  else if 0xF2 ≤ n ∧ n ≤ 0xF6 then ['o']
  else if 0xF9 ≤ n ∧ n ≤ 0xFC then ['u']
  else if n = 0xFD ∨ n = 0xFF then ['y']
  else [c]

/-- `replace(/[^A-Za-z\s'-]/g, ' ')`: anything other than an ASCII letter,
whitespace, apostrophe or hyphen becomes a space. -/
def cleanChar (c : Char) : Char :=
  if isAsciiLetter c || isJsWhitespace c || c == '\'' || c == '-' then c
  else ' '

/-- `split(/\s+/).filter(Boolean)`: the maximal whitespace-free tokens, in
order.  `cur` accumulates the current token in reverse. -/
def splitWsAux : List Char → List Char → List String
  | cur, [] => if cur.isEmpty then [] else [⟨cur.reverse⟩]
  | cur, c :: rest =>
    if isJsWhitespace c then
      if cur.isEmpty then splitWsAux [] rest
      else ⟨cur.reverse⟩ :: splitWsAux [] rest
    else splitWsAux (c :: cur) rest

def splitWsTokens (l : List Char) : List String := splitWsAux [] l

/-- `stripTrailingLocationTokens`: at the first token that is a location
keyword followed by a non-empty tail drawn entirely from the location
vocabulary, drop that token and everything after it. -/
def stripTrailingLocationTokens : List String → List String
  | [] => []
  | t :: rest =>
    if t ∈ locationKeywords ∧ rest ≠ [] ∧ ∀ u ∈ rest, u ∈ locationTokens then
      []
    else
      t :: stripTrailingLocationTokens rest

/-- The rich normalizer `normaliseNameKey`.  A falsy (empty) or non-string
argument yields the empty key. -/
def normaliseNameKey (rawName : String) : String :=
  if rawName = "" then ""
  else
    let t1 := removeParens rawName.data
    let t2 := stripPartyState t1
    let t3 := t2.flatMap nfdStripMarks
    let t4 := t3.map cleanChar
    let parts0 := splitWsTokens (t4.map jsToLower)
    let parts1 := parts0.filter (fun t => 1 < t.length)
    let parts2 := parts1.filter
      (fun t => !(decide (t ∈ nameTitleTokens) || decide (t ∈ nameSuffixTokens)))
    String.intercalate (" ") (stripTrailingLocationTokens parts2)

/-! ## The party-affiliation pattern

`PARTY_AFFILIATION_REGEX = /\b(?:R|D|I|ID|IND|DEM|REP|GOP)\b\s*[-–]?\s*\(?[A-Z]\x7b2\x7d\)?\b/`
tested against the upper-cased text, and
`PARTY_WORD_REGEX = /\b(?:democrat|democratic|republican|independent|libertarian|green)\b/i`
combined with `/\([A-Z]\x7b2\x7d\)/` on the upper-cased text. -/

/-- One-by-one prefix comparison of character lists. -/
def startsWithChars : List Char → List Char → Bool
  | [], _ => true
  | _ :: _, [] => false
  | a :: as, b :: bs => a == b && startsWithChars as bs

/-- The alternatives `R|D|I|ID|IND|DEM|REP|GOP` (regex alternation explores
all of them, so only the set matters for a match-existence test). -/
def partyAlternatives : List (List Char) :=
  [['R'], ['D'], ['I'], ['I', 'D'], ['I', 'N', 'D'], ['D', 'E', 'M'],
   ['R', 'E', 'P'], ['G', 'O', 'P']]

/-- The part `\s*[-–]?\s*\(?[A-Z]\x7b2\x7d\)?\b` of the party regex,
applied after the party word and its trailing `\b`.  The character classes
of the successive pieces are disjoint, so greedy matching is complete, and
the optional `)` is subsumed by the final boundary test because `)` is a
non-word character. -/
def partyTailMatch (l : List Char) : Bool :=
  boundaryNonWord l.head? &&
    (let l1 := l.dropWhile isJsWhitespace
     let l2 := match l1 with
       | '-' :: r => r
       | '–' :: r => r
       | _ => l1
     let l3 := l2.dropWhile isJsWhitespace
     let l4 := match l3 with
       | '(' :: r => r
       | _ => l3
     match l4 with
     | a :: b :: r => isUpperAZ a && isUpperAZ b && boundaryNonWord r.head?
     | _ => false)

/-- A party alternative starting exactly here, followed by the tail
pattern. -/
def partyHeadMatch (l : List Char) : Bool :=
  partyAlternatives.any
    (fun w => startsWithChars w l && partyTailMatch (l.drop w.length))

/-- Scan for `PARTY_AFFILIATION_REGEX` at every position; `prev` carries the
preceding character for the leading `\b`. -/
def partyAffilScan : Option Char → List Char → Bool
  | _, [] => false
  | prev, c :: rest =>
    (boundaryNonWord prev && partyHeadMatch (c :: rest)) ||
      partyAffilScan (some c) rest

/-- The party-name words of `PARTY_WORD_REGEX` (matched case-insensitively,
hence against the lower-cased text). -/
def partyWords : List (List Char) :=
  [['d', 'e', 'm', 'o', 'c', 'r', 'a', 't'],
   ['d', 'e', 'm', 'o', 'c', 'r', 'a', 't', 'i', 'c'],
   ['r', 'e', 'p', 'u', 'b', 'l', 'i', 'c', 'a', 'n'],
   ['i', 'n', 'd', 'e', 'p', 'e', 'n', 'd', 'e', 'n', 't'],
   ['l', 'i', 'b', 'e', 'r', 't', 'a', 'r', 'i', 'a', 'n'],
   ['g', 'r', 'e', 'e', 'n']]

/-- Scan for a `\b`-delimited word from `words`. -/
def wordScan (words : List (List Char)) : Option Char → List Char → Bool
  | _, [] => false
  | prev, c :: rest =>
    (boundaryNonWord prev &&
      words.any (fun w =>
        startsWithChars w (c :: rest) &&
          boundaryNonWord (((c :: rest).drop w.length).head?))) ||
      wordScan words (some c) rest

/-- `/\([A-Z]\x7b2\x7d\)/.test(text.toUpperCase())`. -/
def hasParenStateCode : List Char → Bool
  | [] => false
  | c :: rest =>
    (c == '(' &&
      (match rest with
       | a :: b :: ')' :: _ => isUpperAZ a && isUpperAZ b
       | _ => false)) ||
      hasParenStateCode rest

/-- `containsPartyAffiliation`: the party-affiliation regex on the
upper-cased text, or a party word together with a parenthesised two-letter
state code. -/
def containsPartyAffiliation (text : String) : Bool :=
  if text = "" then false
  else
    let up := text.data.map jsToUpper
    partyAffilScan none up ||
      (wordScan partyWords none (text.data.map jsToLower) &&
        hasParenStateCode up)

/-! ## The exclusion filter -/

/-- `normalised.split(' ').filter(Boolean)`: the non-empty space-separated
parts of a normalized key. -/
def namePartsAux : List Char → List Char → List String
  | cur, [] => if cur.isEmpty then [] else [⟨cur.reverse⟩]
  | cur, c :: rest =>
    if c == ' ' then
      if cur.isEmpty then namePartsAux [] rest
      else ⟨cur.reverse⟩ :: namePartsAux [] rest
    else namePartsAux (c :: cur) rest

def nameParts (s : String) : List String := namePartsAux [] s.data

/-- `containsNonNameTokens`: some token is scraping boilerplate. -/
def containsNonNameTokens (tokens : List String) : Bool :=
  tokens.any (fun t => decide (t ∈ nonNameTokens))

/-- `hasFirstAndLastName`: the rich normalized key must decompose into at
least two tokens free of boilerplate, and the first and last token must be
longer than one character. -/
def hasFirstAndLastName (name : String) : Bool :=
  let normalised := normaliseNameKey name
  if normalised = "" then false
  else
    let parts := nameParts normalised
    if containsNonNameTokens parts then false
    else if parts.length < 2 then false
    else
      decide (1 < (parts.headD ("")).length) &&
        decide (1 < (parts.getLastD ("")).length)

/-- `MAX_HEARING_COUNT_PER_WITNESS`: the fixed appearance-count ceiling. -/
def MAX_HEARING_COUNT_PER_WITNESS : Nat := 55

/-! ## The aggregator -/

/-- The fields of a hearing record read by the aggregation pass: the
database row identifier, the chamber code and the raw witness-name strings
attached to the hearing (other display-only columns are irrelevant here).
The parallel `witnessKeys` array of the script is the map of `nameToKey`
over the names. -/
structure Hearing where
  id : Nat
  chamber : String
  witnesses : List String
  deriving Repr, DecidableEq

def witnessKeys (h : Hearing) : List String := h.witnesses.map nameToKey

/-- One `NormalizedIdentity` entry of the witness map. -/
structure WitnessEntry where
  key : String
  name : String
  hearings : List Hearing
  count : Nat
  chambers : List String
  deriving Repr, DecidableEq

/-- `entry.chambers.add(hearing.chamber)`, guarded by
`if (hearing.chamber)`; a JS `Set` keeps insertion order. -/
def addChamber (cs : List String) (c : String) : List String :=
  if c = "" then cs
  else if c ∈ cs then cs
  else cs ++ [c]

/-- The literal seed `\x7bkey, name, hearings: [], count: 0, chambers: new Set()\x7d`. -/
def freshEntry (key name : String) : WitnessEntry :=
  ⟨key, name, [], 0, []⟩

/-- The mutations applied to the (fresh or found) entry: keep the longer
display name (ties keep the existing one), push the hearing, bump the
count, record the chamber. -/
def updateEntry (e : WitnessEntry) (name : String) (h : Hearing) : WitnessEntry :=
  { e with
    name := if e.name = "" ∨ e.name.length < name.length then name else e.name
    hearings := e.hearings ++ [h]
    count := e.count + 1
    chambers := addChamber e.chambers h.chamber }

/-- `map.get(key)` on the insertion-ordered entry list. -/
def findEntry (map : List WitnessEntry) (key : String) : Option WitnessEntry :=
  map.find? (fun e => e.key == key)

/-- `map.set(key, entry)`: replace the entry carrying this key in place, or
append a new one. -/
def setEntry : List WitnessEntry → WitnessEntry → List WitnessEntry
  | [], e => [e]
  | x :: xs, e => if x.key == e.key then e :: xs else x :: setEntry xs e

/-- Process one witness occurrence: fetch or create the entry for `key`,
apply the updates, store it back. -/
def insertWitness (map : List WitnessEntry) (key name : String) (h : Hearing) :
    List WitnessEntry :=
  setEntry map (updateEntry ((findEntry map key).getD (freshEntry key name)) name h)

/-- The inner loop of `buildWitnessMap` over one hearing's witness list:
empty keys are skipped, and `seenDuringHearing` de-duplicates keys within
the hearing. -/
def processWitnessNames (h : Hearing) :
    List String → List String → List WitnessEntry → List WitnessEntry
  | [], _, map => map
  | name :: rest, seen, map =>
    let key := nameToKey name
    if key = "" ∨ key ∈ seen then processWitnessNames h rest seen map
    else processWitnessNames h rest (key :: seen) (insertWitness map key name h)

def processHearing (map : List WitnessEntry) (h : Hearing) : List WitnessEntry :=
  processWitnessNames h h.witnesses [] map

/-- The aggregation fold of `buildWitnessMap`, before the exclusion
filter. -/
def witnessFold (hearings : List Hearing) : List WitnessEntry :=
  hearings.foldl processHearing []

/-- `shouldIncludeWitness`: the exclusion filter, rules in source order. -/
def shouldIncludeWitness (entry : WitnessEntry)
    (excludedLegislatorKeys : List String) : Bool :=
  if MAX_HEARING_COUNT_PER_WITNESS < entry.count then false
  else if !hasFirstAndLastName entry.name then false
  else if containsPartyAffiliation entry.name then false
  else
    let normalised := normaliseNameKey entry.name
    if normalised ≠ "" ∧ normalised ∈ excludedLegislatorKeys then false
    else true

/-- `buildWitnessMap`: aggregate, then keep only the entries the exclusion
filter admits. -/
def buildWitnessMap (hearings : List Hearing)
    (excludedLegislatorKeys : List String) : List WitnessEntry :=
  (witnessFold hearings).filter
    (fun e => shouldIncludeWitness e excludedLegislatorKeys)

/-! ## The final ordering -/

/-- The model of `localeCompare(..., \x7b sensitivity: 'base' \x7d)` used for
tie-breaking: compare the lower-cased, accent-stripped names
lexicographically. -/
def lowerBase (s : String) : String :=
  ⟨(s.data.flatMap nfdStripMarks).map jsToLower⟩

/-- The `sortWitnesses` comparator as a total preorder: descending count,
then ascending case-insensitive display name. -/
def witnessLE (a b : WitnessEntry) : Bool :=
  if a.count = b.count then decide (lowerBase a.name ≤ lowerBase b.name)
  else decide (b.count < a.count)

/-- `Array.from(state.witnessMap.values()).sort(sortWitnesses)`. -/
def sortedWitnesses (hearings : List Hearing)
    (excludedLegislatorKeys : List String) : List WitnessEntry :=
  (buildWitnessMap hearings excludedLegislatorKeys).mergeSort witnessLE

/-- The first raw name of a list whose map key is `k` — the occurrence that
actually touches the map entry for `k` while a hearing is processed. -/
def firstRawFor (names : List String) (k : String) : Option String :=
  names.find? (fun n => nameToKey n == k)

/-- Does some raw witness name of `h` normalize (via `nameToKey`) to `k`? -/
def hearingMentions (k : String) (h : Hearing) : Bool :=
  h.witnesses.any (fun n => nameToKey n == k)

/-- The appearance count recorded for key `k` (0 when absent). -/
def entryCount (map : List WitnessEntry) (k : String) : Nat :=
  ((findEntry map k).map WitnessEntry.count).getD 0

/-- Well-formedness of a map entry: non-empty key, count equal to the
length of the hearing list, display name normalizing to the key. -/
def goodEntry (e : WitnessEntry) : Prop :=
  e.key ≠ "" ∧ e.count = e.hearings.length ∧ nameToKey e.name = e.key

/-! ## Concrete data used to instantiate the theorems -/

def hearingHouseJane : Hearing := ⟨1, ("house"), [("Jane Doe"), ("JANE   DOE")]⟩

def hearingSenateJane : Hearing := ⟨2, ("senate"), [("jane doe")]⟩

def entryJane : WitnessEntry :=
  ⟨("jane doe"), ("Jane Doe"), [hearingHouseJane, hearingSenateJane], 2,
   [("house"), ("senate")]⟩

def hearingAlBo : Hearing := ⟨0, ("house"), [("Al Bo")]⟩

/-- 56 repetitions of the same single-witness hearing: enough appearances
to cross the exclusion ceiling. -/
def hearingsOverCeiling : List Hearing := List.replicate 56 hearingAlBo

def entryAlBo : WitnessEntry :=
  ⟨("al bo"), ("Al Bo"), List.replicate 56 hearingAlBo, 56, [("house")]⟩

def hearingZelensky : Hearing := ⟨1, ("house"), [("Zelensky")]⟩

def entryZelensky : WitnessEntry :=
  ⟨("zelensky"), ("Zelensky"), [hearingZelensky], 1, [("house")]⟩

def hearingEmptyName : Hearing := ⟨1, ("house"), [(""), ("Jane Doe")]⟩

def hearingSenateJaneLong : Hearing := ⟨2, ("senate"), [("JANE   DOE")]⟩

def entryJaneSolo : WitnessEntry :=
  ⟨("jane doe"), ("Jane Doe"), [hearingEmptyName], 1, [("house")]⟩

/-! ## Witness-map machinery lemmas -/

theorem key_updateEntry (e : WitnessEntry) (name : String) (h : Hearing) :
    (updateEntry e name h).key = e.key := rfl

theorem findEntry_some_key {m : List WitnessEntry} {k : String} {e : WitnessEntry}
    (hf : findEntry m k = some e) : e.key = k := by
  have := List.find?_some hf
  simpa using this

theorem mem_of_findEntry {m : List WitnessEntry} {k : String} {e : WitnessEntry}
    (hf : findEntry m k = some e) : e ∈ m :=
  List.mem_of_find?_eq_some hf

theorem findEntry_setEntry_self (m : List WitnessEntry) (e : WitnessEntry) :
    findEntry (setEntry m e) e.key = some e := by
  induction m with
  | nil => simp [setEntry, findEntry]
  | cons x xs ih =>
    by_cases hx : x.key = e.key
    · simp [setEntry, findEntry, hx]
    · simp only [setEntry, beq_iff_eq, hx, if_false]
      simpa [findEntry, hx] using ih

theorem findEntry_setEntry_ne (m : List WitnessEntry) (e : WitnessEntry)
    {k : String} (hk : k ≠ e.key) :
    findEntry (setEntry m e) k = findEntry m k := by
  have hek : ¬(e.key = k) := fun hcontra => hk hcontra.symm
  induction m with
  | nil => simp [setEntry, findEntry, hek]
  | cons x xs ih =>
    by_cases hx : x.key = e.key
    · have hxknot : ¬(x.key = k) := by rw [hx]; exact hek
      simp [setEntry, findEntry, hx, hek, hxknot]
    · by_cases hxk : x.key = k
      · simp [setEntry, findEntry, hx, hxk, hk]
      · simp only [setEntry, beq_iff_eq, hx, if_false]
        simpa [findEntry, hxk] using ih

theorem mem_setEntry {e y : WitnessEntry} :
    ∀ {m : List WitnessEntry}, y ∈ setEntry m e → y = e ∨ y ∈ m := by
  intro m
  induction m with
  | nil => intro hy; simpa [setEntry] using hy
  | cons x xs ih =>
    intro hy
    by_cases hx : x.key = e.key
    · simp only [setEntry, beq_iff_eq, hx, if_true, List.mem_cons] at hy
      rcases hy with hy | hy
      · exact Or.inl hy
      · exact Or.inr (List.mem_cons_of_mem _ hy)
    · simp only [setEntry, beq_iff_eq, hx, if_false, List.mem_cons] at hy
      rcases hy with hy | hy
      · exact Or.inr (by simp [hy])
      · rcases ih hy with h | h
        · exact Or.inl h
        · exact Or.inr (List.mem_cons_of_mem _ h)

theorem keys_setEntry (m : List WitnessEntry) (e : WitnessEntry) :
    (setEntry m e).map WitnessEntry.key =
      if e.key ∈ m.map WitnessEntry.key then m.map WitnessEntry.key
      else m.map WitnessEntry.key ++ [e.key] := by
  induction m with
  | nil => simp [setEntry]
  | cons x xs ih =>
    by_cases hx : x.key = e.key
    · simp [setEntry, hx]
    · have hne : e.key ≠ x.key := fun h => hx h.symm
      by_cases hmem : e.key ∈ xs.map WitnessEntry.key
      · simp [setEntry, hx, hne, hmem, ih]
      · simp [setEntry, hx, hne, hmem, ih]

theorem keys_nodup_setEntry {m : List WitnessEntry} {e : WitnessEntry}
    (nd : (m.map WitnessEntry.key).Nodup) :
    ((setEntry m e).map WitnessEntry.key).Nodup := by
  rw [keys_setEntry]
  by_cases hmem : e.key ∈ m.map WitnessEntry.key
  · simpa [hmem] using nd
  · simp only [hmem, if_false]
    rw [List.nodup_append]
    refine ⟨nd, List.nodup_singleton _, ?_⟩
    intro a ha hae
    rw [List.mem_singleton] at hae
    exact hmem (hae ▸ ha)

theorem key_insert_target (m : List WitnessEntry) (k n : String) (h : Hearing) :
    (updateEntry ((findEntry m k).getD (freshEntry k n)) n h).key = k := by
  cases hf : findEntry m k with
  | none => rfl
  | some e => simpa [key_updateEntry] using findEntry_some_key hf

theorem findEntry_insertWitness_self (m : List WitnessEntry) (k n : String) (h : Hearing) :
    findEntry (insertWitness m k n h) k =
      some (updateEntry ((findEntry m k).getD (freshEntry k n)) n h) := by
  have hself :=
    findEntry_setEntry_self m (updateEntry ((findEntry m k).getD (freshEntry k n)) n h)
  rw [key_insert_target] at hself
  exact hself

theorem findEntry_insertWitness_ne (m : List WitnessEntry) (k n : String) (h : Hearing)
    {k' : String} (hk : k' ≠ k) :
    findEntry (insertWitness m k n h) k' = findEntry m k' := by
  unfold insertWitness
  exact findEntry_setEntry_ne _ _ (by rw [key_insert_target]; exact hk)

theorem mem_insertWitness {m : List WitnessEntry} {k n : String} {h : Hearing}
    {y : WitnessEntry} (hy : y ∈ insertWitness m k n h) :
    y = updateEntry ((findEntry m k).getD (freshEntry k n)) n h ∨ y ∈ m :=
  mem_setEntry hy

theorem keys_nodup_insertWitness {m : List WitnessEntry} (k n : String) (h : Hearing)
    (nd : (m.map WitnessEntry.key).Nodup) :
    ((insertWitness m k n h).map WitnessEntry.key).Nodup :=
  keys_nodup_setEntry nd

/-- How one hearing's inner loop affects the entry stored at key `k`: the
first raw name of the list normalizing to `k` updates it (once — later
repeats are stopped by `seenDuringHearing`), and nothing else touches it. -/
theorem findEntry_processWitnessNames (h : Hearing) :
    ∀ (names seen : List String) (map : List WitnessEntry) (k : String),
    findEntry (processWitnessNames h names seen map) k =
      if k ≠ "" ∧ k ∉ seen ∧ (firstRawFor names k).isSome then
        some (updateEntry
          ((findEntry map k).getD (freshEntry k ((firstRawFor names k).getD (""))))
          ((firstRawFor names k).getD ("")) h)
      else findEntry map k := by
  intro names
  induction names with
  | nil =>
    intro seen map k
    simp [processWitnessNames, firstRawFor]
  | cons name rest ih =>
    intro seen map k
    by_cases h0 : nameToKey name = "" ∨ nameToKey name ∈ seen
    · rw [processWitnessNames, if_pos h0, ih]
      by_cases hk : k = nameToKey name
      · have h0' : k = "" ∨ k ∈ seen := by rw [hk]; exact h0
        have hfalse : ¬(k ≠ "" ∧ k ∉ seen) := by
          rcases h0' with h0' | h0'
          · exact fun hc => hc.1 h0'
          · exact fun hc => hc.2 h0'
        rw [if_neg (fun hc => hfalse ⟨hc.1, hc.2.1⟩),
          if_neg (fun hc => hfalse ⟨hc.1, hc.2.1⟩)]
      · have hne : ¬((nameToKey name == k) = true) := by
          simp only [beq_iff_eq]
          exact fun hcontra => hk hcontra.symm
        have hfr0 : List.find? (fun n => nameToKey n == k) (name :: rest) =
            List.find? (fun n => nameToKey n == k) rest :=
          List.find?_cons_of_neg rest hne
        have hfr : firstRawFor (name :: rest) k = firstRawFor rest k := hfr0
        rw [hfr]
    · push_neg at h0
      rw [processWitnessNames, if_neg (by simp [h0.1, h0.2]), ih]
      by_cases hk : k = nameToKey name
      · rw [← hk] at h0 ⊢
        have hfr0 : List.find? (fun n => nameToKey n == k) (name :: rest) =
            some name :=
          List.find?_cons_of_pos rest (by simp [hk.symm])
        have hfr : firstRawFor (name :: rest) k = some name := hfr0
        rw [if_neg (fun hc => hc.2.1 (List.mem_cons_self _ _)),
          findEntry_insertWitness_self,
          if_pos ⟨h0.1, h0.2, by rw [hfr]; rfl⟩, hfr]
        rfl
      · have hne : ¬((nameToKey name == k) = true) := by
          simp only [beq_iff_eq]
          exact fun hcontra => hk hcontra.symm
        have hfr0 : List.find? (fun n => nameToKey n == k) (name :: rest) =
            List.find? (fun n => nameToKey n == k) rest :=
          List.find?_cons_of_neg rest hne
        have hfr : firstRawFor (name :: rest) k = firstRawFor rest k := hfr0
        have hmem : (k ∉ nameToKey name :: seen) ↔ k ∉ seen := by
          simp [hk]
        rw [findEntry_insertWitness_ne _ _ _ _ hk, hfr]
        by_cases hcond : k ≠ "" ∧ k ∉ seen ∧ (firstRawFor rest k).isSome
        · rw [if_pos ⟨hcond.1, hmem.mpr hcond.2.1, hcond.2.2⟩, if_pos hcond]
        · rw [if_neg (fun hc => hcond ⟨hc.1, hmem.mp hc.2.1, hc.2.2⟩),
            if_neg hcond]

theorem findEntry_processHearing (map : List WitnessEntry) (h : Hearing) (k : String) :
    findEntry (processHearing map h) k =
      if k ≠ "" ∧ (firstRawFor h.witnesses k).isSome then
        some (updateEntry
          ((findEntry map k).getD (freshEntry k ((firstRawFor h.witnesses k).getD (""))))
          ((firstRawFor h.witnesses k).getD ("")) h)
      else findEntry map k := by
  rw [processHearing, findEntry_processWitnessNames]
  by_cases hc : k ≠ "" ∧ (firstRawFor h.witnesses k).isSome
  · rw [if_pos ⟨hc.1, by simp, hc.2⟩, if_pos hc]
  · rw [if_neg (fun hcc => hc ⟨hcc.1, hcc.2.2⟩), if_neg hc]

theorem firstRawFor_isSome_iff (names : List String) (k : String) :
    (firstRawFor names k).isSome ↔ ∃ n ∈ names, nameToKey n = k := by
  unfold firstRawFor
  rw [List.find?_isSome]
  simp

theorem hearingMentions_iff (k : String) (h : Hearing) :
    hearingMentions k h = true ↔ ∃ n ∈ h.witnesses, nameToKey n = k := by
  unfold hearingMentions
  rw [List.any_eq_true]
  simp

theorem entryCount_processHearing (map : List WitnessEntry) (h : Hearing)
    (k : String) (hk : k ≠ "") :
    entryCount (processHearing map h) k =
      entryCount map k + (if hearingMentions k h then 1 else 0) := by
  unfold entryCount
  rw [findEntry_processHearing]
  have hiff : (firstRawFor h.witnesses k).isSome ↔ hearingMentions k h = true := by
    rw [firstRawFor_isSome_iff, hearingMentions_iff]
  by_cases hm : hearingMentions k h = true
  · rw [if_pos ⟨hk, hiff.mpr hm⟩, if_pos hm]
    cases hf : findEntry map k with
    | none => simp [hf, updateEntry, freshEntry]
    | some e => simp [hf, updateEntry]
  · rw [if_neg (fun hc => hm (hiff.mp hc.2)), if_neg hm]
    simp

theorem entryCount_foldl (k : String) (hk : k ≠ "") :
    ∀ (hs : List Hearing) (map : List WitnessEntry),
    entryCount (hs.foldl processHearing map) k =
      entryCount map k + (hs.filter (hearingMentions k)).length := by
  intro hs
  induction hs with
  | nil => intro map; simp
  | cons h hs ih =>
    intro map
    rw [List.foldl_cons, ih, entryCount_processHearing map h k hk]
    by_cases hm : hearingMentions k h = true
    · rw [List.filter_cons_of_pos hm, if_pos hm]
      simp [Nat.add_comm, Nat.add_assoc, Nat.add_left_comm]
    · rw [List.filter_cons_of_neg (by simpa using hm), if_neg hm]
      omega

theorem keys_nodup_processWitnessNames (h : Hearing) :
    ∀ (names seen : List String) (map : List WitnessEntry),
    (map.map WitnessEntry.key).Nodup →
      ((processWitnessNames h names seen map).map WitnessEntry.key).Nodup := by
  intro names
  induction names with
  | nil => intro seen map nd; simpa [processWitnessNames] using nd
  | cons name rest ih =>
    intro seen map nd
    rw [processWitnessNames]
    by_cases h0 : nameToKey name = "" ∨ nameToKey name ∈ seen
    · rw [if_pos h0]; exact ih _ _ nd
    · rw [if_neg h0]; exact ih _ _ (keys_nodup_insertWitness _ _ _ nd)

theorem keys_nodup_witnessFold (hs : List Hearing) :
    ((witnessFold hs).map WitnessEntry.key).Nodup := by
  have aux : ∀ (hs' : List Hearing) (map : List WitnessEntry),
      (map.map WitnessEntry.key).Nodup →
      ((hs'.foldl processHearing map).map WitnessEntry.key).Nodup := by
    intro hs'
    induction hs' with
    | nil => intro map nd; simpa using nd
    | cons h t ih =>
      intro map nd
      exact ih _ (keys_nodup_processWitnessNames h _ [] map nd)
  exact aux hs [] (by simp)

theorem goodEntry_processWitnessNames (h : Hearing) :
    ∀ (names seen : List String) (map : List WitnessEntry),
    (∀ e ∈ map, goodEntry e) →
      ∀ e ∈ processWitnessNames h names seen map, goodEntry e := by
  intro names
  induction names with
  | nil => intro seen map hmap; simpa [processWitnessNames] using hmap
  | cons name rest ih =>
    intro seen map hmap
    rw [processWitnessNames]
    by_cases h0 : nameToKey name = "" ∨ nameToKey name ∈ seen
    · rw [if_pos h0]; exact ih _ _ hmap
    · rw [if_neg h0]
      have hkey : nameToKey name ≠ "" := fun hc => h0 (Or.inl hc)
      apply ih
      intro e he
      rcases mem_insertWitness he with rfl | hem
      · refine ⟨?_, ?_, ?_⟩
        · rw [key_insert_target]; exact hkey
        · cases hf : findEntry map (nameToKey name) with
          | none => simp [hf, updateEntry, freshEntry]
          | some e0 =>
            have hg := hmap e0 (mem_of_findEntry hf)
            simp [hf, updateEntry, hg.2.1]
        · cases hf : findEntry map (nameToKey name) with
          | none =>
            simp only [hf, Option.getD_none, updateEntry, freshEntry]
            by_cases hcond : (freshEntry (nameToKey name) name).name = "" ∨
                (freshEntry (nameToKey name) name).name.length < name.length
            · simp [freshEntry]
            · simp [freshEntry]
          | some e0 =>
            have hg := hmap e0 (mem_of_findEntry hf)
            have hk0 : e0.key = nameToKey name := findEntry_some_key hf
            simp only [hf, Option.getD_some, updateEntry]
            by_cases hcond : e0.name = "" ∨ e0.name.length < name.length
            · simp [hcond, hk0]
            · simp [hcond, hg.2.2, hk0]
      · exact hmap e hem

theorem goodEntry_witnessFold (hs : List Hearing) :
    ∀ e ∈ witnessFold hs, goodEntry e := by
  have aux : ∀ (hs' : List Hearing) (map : List WitnessEntry),
      (∀ e ∈ map, goodEntry e) →
      ∀ e ∈ hs'.foldl processHearing map, goodEntry e := by
    intro hs'
    induction hs' with
    | nil => intro map hmap; simpa using hmap
    | cons h t ih =>
      intro map hmap
      exact ih _ (goodEntry_processWitnessNames h _ [] map hmap)
  exact aux hs [] (by simp)

theorem findEntry_eq_some_of_mem {m : List WitnessEntry} {e : WitnessEntry}
    (nd : (m.map WitnessEntry.key).Nodup) (he : e ∈ m) :
    findEntry m e.key = some e := by
  induction m with
  | nil => cases he
  | cons x xs ih =>
    rcases List.mem_cons.mp he with rfl | he'
    · simp [findEntry]
    · have hx : x.key ≠ e.key := by
        intro hcontra
        have : e.key ∈ xs.map WitnessEntry.key := List.mem_map_of_mem _ he'
        rw [List.map_cons, List.nodup_cons] at nd
        exact nd.1 (hcontra ▸ this)
      have nd' : (xs.map WitnessEntry.key).Nodup := by
        rw [List.map_cons, List.nodup_cons] at nd
        exact nd.2
      simpa [findEntry, hx] using ih nd' he'

/-! ## Exclusion-filter consequences -/

theorem shouldInclude_facts {e : WitnessEntry} {ex : List String}
    (h : shouldIncludeWitness e ex = true) :
    e.count ≤ MAX_HEARING_COUNT_PER_WITNESS ∧ hasFirstAndLastName e.name = true := by
  unfold shouldIncludeWitness at h
  by_cases h1 : MAX_HEARING_COUNT_PER_WITNESS < e.count
  · rw [if_pos h1] at h
    exact absurd h (by simp)
  · rw [if_neg h1] at h
    by_cases h2 : (!hasFirstAndLastName e.name) = true
    · rw [if_pos h2] at h
      exact absurd h (by simp)
    · exact ⟨by omega, by simpa using h2⟩

theorem hasFirstAndLastName_two_parts {name : String}
    (h : hasFirstAndLastName name = true) :
    2 ≤ (nameParts (normaliseNameKey name)).length := by
  simp only [hasFirstAndLastName] at h
  by_cases h1 : normaliseNameKey name = ""
  · rw [if_pos h1] at h
    exact absurd h (by simp)
  · rw [if_neg h1] at h
    by_cases h2 : containsNonNameTokens (nameParts (normaliseNameKey name)) = true
    · rw [if_pos h2] at h
      exact absurd h (by simp)
    · rw [if_neg h2] at h
      by_cases h3 : (nameParts (normaliseNameKey name)).length < 2
      · rw [if_pos h3] at h
        exact absurd h (by simp)
      · omega

/-! ## Claim theorems -/

/-- C1: for every list of hearing records (with pairwise-distinct hearing
identifiers, which is what a hearing list represents), every identity in
the map built by `buildWitnessMap` has an appearance count equal to the
number of distinct hearing identifiers whose witness list contains some raw
name normalizing (via `nameToKey`) to the identity's key; repeats of a key
inside one hearing's witness list never contribute more than 1. -/
theorem buildWitnessMap_count_eq_distinct_hearings (hs : List Hearing)
    (ex : List String) (hnd : (hs.map Hearing.id).Nodup) (e : WitnessEntry)
    (he : e ∈ buildWitnessMap hs ex) :
    e.count =
      ((hs.filter (hearingMentions e.key)).map Hearing.id).dedup.length := by
  have hef : e ∈ witnessFold hs := (List.mem_filter.mp he).1
  have hk : e.key ≠ "" := (goodEntry_witnessFold hs e hef).1
  have hfind := findEntry_eq_some_of_mem (keys_nodup_witnessFold hs) hef
  have hcount : entryCount (witnessFold hs) e.key = e.count := by
    unfold entryCount
    rw [hfind]
    rfl
  have hfold := entryCount_foldl e.key hk hs []
  have hnil : entryCount [] e.key = 0 := rfl
  rw [witnessFold] at hcount
  rw [hfold, hnil, Nat.zero_add] at hcount
  have hsub : ((hs.filter (hearingMentions e.key)).map Hearing.id).Nodup :=
    List.Nodup.sublist (List.Sublist.map Hearing.id (List.filter_sublist hs)) hnd
  rw [List.dedup_eq_self.mpr hsub, List.length_map]
  exact hcount.symm

theorem buildWitnessMap_count_witness :
    (([hearingHouseJane, hearingSenateJane].map Hearing.id)).Nodup ∧
      entryJane ∈ buildWitnessMap [hearingHouseJane, hearingSenateJane] [] ∧
      entryJane.count =
        (([hearingHouseJane, hearingSenateJane].filter
          (hearingMentions entryJane.key)).map Hearing.id).dedup.length :=
  ⟨by decide, by decide,
    buildWitnessMap_count_eq_distinct_hearings [hearingHouseJane, hearingSenateJane]
      [] (by decide) entryJane (by decide)⟩

/-- C4: an aggregated identity whose appearance count exceeds the fixed
ceiling `MAX_HEARING_COUNT_PER_WITNESS` is excluded from the final output,
whatever its name looks like. -/
theorem over_ceiling_excluded (hs : List Hearing) (ex : List String)
    (e : WitnessEntry) (he : e ∈ witnessFold hs)
    (hc : MAX_HEARING_COUNT_PER_WITNESS < e.count) :
    e ∉ buildWitnessMap hs ex := by
  intro hmem
  have hle := (shouldInclude_facts (List.mem_filter.mp hmem).2).1
  omega

set_option maxRecDepth 40000 in
theorem over_ceiling_excluded_witness :
    entryAlBo ∈ witnessFold hearingsOverCeiling ∧
      MAX_HEARING_COUNT_PER_WITNESS < entryAlBo.count ∧
      entryAlBo ∉ buildWitnessMap hearingsOverCeiling [] :=
  ⟨by decide, by decide,
    over_ceiling_excluded hearingsOverCeiling [] entryAlBo (by decide) (by decide)⟩

/-- C5: an aggregated identity whose normalized key (the rich
`normaliseNameKey` of rule 2, applied to its display name) has at most one
token is excluded from the final output — the two-token first+last-name
rule fails. -/
theorem single_token_excluded (hs : List Hearing) (ex : List String)
    (e : WitnessEntry) (he : e ∈ witnessFold hs)
    (ht : (nameParts (normaliseNameKey e.name)).length ≤ 1) :
    e ∉ buildWitnessMap hs ex := by
  intro hmem
  have h2 :=
    hasFirstAndLastName_two_parts (shouldInclude_facts (List.mem_filter.mp hmem).2).2
  omega

theorem single_token_excluded_witness :
    entryZelensky ∈ witnessFold [hearingZelensky] ∧
      (nameParts (normaliseNameKey entryZelensky.name)).length ≤ 1 ∧
      entryZelensky ∉ buildWitnessMap [hearingZelensky] [] :=
  ⟨by decide, by decide,
    single_token_excluded [hearingZelensky] [] entryZelensky (by decide) (by decide)⟩

/-- C6: when a hearing contributes an already-seen key again (its first raw
name for that key being `n`), the stored identity keeps its key, appends
the hearing, bumps the count, records the chamber, and its display name
becomes the longer of the existing name and `n` — with ties keeping the
existing name. -/
theorem repeat_appearance_updates_entry (map : List WitnessEntry)
    (h : Hearing) (k n : String) (e : WitnessEntry)
    (hfind : findEntry map k = some e) (hk : k ≠ "") (hne : e.name ≠ (""))
    (hn : firstRawFor h.witnesses k = some n) :
    findEntry (processHearing map h) k =
      some { key := e.key
             name := if e.name.length < n.length then n else e.name
             hearings := e.hearings ++ [h]
             count := e.count + 1
             chambers := addChamber e.chambers h.chamber } := by
  rw [findEntry_processHearing, if_pos ⟨hk, by rw [hn]; rfl⟩, hn]
  simp only [hfind, Option.getD_some, updateEntry]
  have hname : (if e.name = "" ∨ e.name.length < n.length then n else e.name) =
      (if e.name.length < n.length then n else e.name) := by
    by_cases hlt : e.name.length < n.length
    · simp [hlt]
    · simp [hlt, hne]
  rw [hname]

theorem repeat_appearance_updates_entry_witness :
    findEntry [entryJaneSolo] ("jane doe") = some entryJaneSolo ∧
      firstRawFor hearingSenateJaneLong.witnesses ("jane doe") =
        some ("JANE   DOE") ∧
      findEntry (processHearing [entryJaneSolo] hearingSenateJaneLong)
          ("jane doe") =
        some { key := entryJaneSolo.key
               name := if entryJaneSolo.name.length < ("JANE   DOE").length
                 then ("JANE   DOE") else entryJaneSolo.name
               hearings := entryJaneSolo.hearings ++ [hearingSenateJaneLong]
               count := entryJaneSolo.count + 1
               chambers := addChamber entryJaneSolo.chambers
                 hearingSenateJaneLong.chamber } :=
  ⟨by decide, by decide,
    repeat_appearance_updates_entry [entryJaneSolo] hearingSenateJaneLong
      ("jane doe") ("JANE   DOE") entryJaneSolo (by decide) (by decide)
      (by decide) (by decide)⟩

/-- C7: the pipeline is deterministic — output is a pure function of the
hearing sequence and the exclusion set, with no hidden state: equal inputs
give identical normalization, aggregation and final sorted output. -/
theorem pipeline_deterministic (hs₁ hs₂ : List Hearing) (ex₁ ex₂ : List String)
    (hh : hs₁ = hs₂) (hx : ex₁ = ex₂) :
    sortedWitnesses hs₁ ex₁ = sortedWitnesses hs₂ ex₂ ∧
      buildWitnessMap hs₁ ex₁ = buildWitnessMap hs₂ ex₂ ∧
      ∀ s t : String, s = t → nameToKey s = nameToKey t := by
  subst hh
  subst hx
  exact ⟨rfl, rfl, fun s t hst => by rw [hst]⟩

theorem pipeline_deterministic_witness :
    sortedWitnesses [hearingHouseJane] [] = sortedWitnesses [hearingHouseJane] [] ∧
      buildWitnessMap [hearingHouseJane] [] = buildWitnessMap [hearingHouseJane] [] ∧
      ∀ s t : String, s = t → nameToKey s = nameToKey t :=
  pipeline_deterministic [hearingHouseJane] [hearingHouseJane] [] [] rfl rfl

/-- C8: a malformed raw name — the empty string, or a non-string value —
normalizes to the empty key, and no identity with an empty key ever reaches
the output map; the pass never fails on any input string (all the modelled
functions are total). -/
theorem empty_key_never_output (hs : List Hearing) (ex : List String)
    (e : WitnessEntry) (he : e ∈ buildWitnessMap hs ex) :
    nameToKey ("") = "" ∧ nameToKeyOpt none = "" ∧ e.key ≠ "" :=
  ⟨by decide, by decide, (goodEntry_witnessFold hs e (List.mem_filter.mp he).1).1⟩

theorem empty_key_never_output_witness :
    entryJaneSolo ∈ buildWitnessMap [hearingEmptyName] [] ∧
      (nameToKey ("") = "" ∧ nameToKeyOpt none = "" ∧ entryJaneSolo.key ≠ "") :=
  ⟨by decide,
    empty_key_never_output [hearingEmptyName] [] entryJaneSolo (by decide)⟩

/-- C10: every entry of the map returned by `buildWitnessMap` has a
non-empty key, a count equal to the length of its hearings list, and a
display name that `nameToKey` maps back to its key. -/
theorem buildWitnessMap_entry_invariants (hs : List Hearing) (ex : List String)
    (e : WitnessEntry) (he : e ∈ buildWitnessMap hs ex) :
    e.key ≠ "" ∧ e.count = e.hearings.length ∧ nameToKey e.name = e.key :=
  goodEntry_witnessFold hs e (List.mem_filter.mp he).1

theorem buildWitnessMap_entry_invariants_witness :
    entryJane ∈ buildWitnessMap [hearingHouseJane, hearingSenateJane] [] ∧
      (entryJane.key ≠ "" ∧ entryJane.count = entryJane.hearings.length ∧
        nameToKey entryJane.name = entryJane.key) :=
  ⟨by decide,
    buildWitnessMap_entry_invariants [hearingHouseJane, hearingSenateJane] []
      entryJane (by decide)⟩

/-! ## Comparator lemmas for the final ordering -/

theorem witnessLE_iff (a b : WitnessEntry) :
    witnessLE a b = true ↔
      (b.count < a.count ∨
        (a.count = b.count ∧ lowerBase a.name ≤ lowerBase b.name)) := by
  unfold witnessLE
  by_cases h : a.count = b.count
  · simp [h]
  · simp [h]

theorem witnessLE_trans (a b c : WitnessEntry) (hab : witnessLE a b = true)
    (hbc : witnessLE b c = true) : witnessLE a c = true := by
  rw [witnessLE_iff] at hab hbc ⊢
  rcases hab with h1 | ⟨h1, h1'⟩ <;> rcases hbc with h2 | ⟨h2, h2'⟩
  · exact Or.inl (by omega)
  · exact Or.inl (by omega)
  · exact Or.inl (by omega)
  · exact Or.inr ⟨by omega, le_trans h1' h2'⟩

theorem witnessLE_total (a b : WitnessEntry) :
    (witnessLE a b || witnessLE b a) = true := by
  unfold witnessLE
  by_cases h : a.count = b.count
  · rw [if_pos h, if_pos h.symm]
    rcases le_total (lowerBase a.name) (lowerBase b.name) with hle | hle
    · simp [hle]
    · simp [hle]
  · rw [if_neg h, if_neg (fun hc => h hc.symm)]
    rcases Nat.lt_or_ge a.count b.count with hlt | hge
    · simp [hlt]
    · have hba : b.count < a.count :=
        Nat.lt_of_le_of_ne hge (fun hc => h hc.symm)
      simp [hba]

/-- C3: the final list exposed to callers is sorted by descending
appearance count, ties broken by ascending display name compared
case-insensitively (the `lowerBase` model of base-sensitivity
`localeCompare`), and is a permutation of the filtered witness map. -/
theorem sortedWitnesses_ordering (hs : List Hearing) (ex : List String) :
    (sortedWitnesses hs ex).Pairwise (fun a b =>
      b.count < a.count ∨
        (a.count = b.count ∧ lowerBase a.name ≤ lowerBase b.name)) ∧
      (sortedWitnesses hs ex).Perm (buildWitnessMap hs ex) := by
  constructor
  · have hp := List.sorted_mergeSort witnessLE_trans witnessLE_total
      (buildWitnessMap hs ex)
    exact hp.imp (fun hab => (witnessLE_iff _ _).mp hab)
  · exact List.mergeSort_perm (buildWitnessMap hs ex) witnessLE

/-- C2 (as stated, refuted): the map-key normalizer `nameToKey` does not
strip honorifics, party/state annotations or trailing location phrases, so
the claimed equalities fail on the claim's own examples. -/
theorem nameToKey_keeps_decorations :
    nameToKey ("Hon. Jane Doe (D-CA)") ≠ nameToKey ("Jane Doe") ∧
      nameToKey ("Jane Doe of California") ≠ nameToKey ("Jane Doe") ∧
      nameToKey ("Hon. Jane Doe (D-CA)") = ("hon. jane doe (d-ca)") :=
  ⟨by decide, by decide, by decide⟩

/-- C2 (amended): it is the rich normalizer `normaliseNameKey` — used by
the exclusion filter and for exclusion-set lookups — that identifies
raw names differing only by honorific/role title, name suffix, party/state
annotation, or a trailing location phrase. -/
theorem normaliseNameKey_strips_decorations :
    normaliseNameKey ("Hon. Jane Doe (D-CA)") = normaliseNameKey ("Jane Doe") ∧
      normaliseNameKey ("Jane Doe of California") = normaliseNameKey ("Jane Doe") ∧
      normaliseNameKey ("Jane Doe, Jr.") = normaliseNameKey ("Jane Doe") ∧
      normaliseNameKey ("Sen. John Smith R-OK") = normaliseNameKey ("John Smith") ∧
      normaliseNameKey ("Jane Doe") = ("jane doe") :=
  ⟨by decide, by decide, by decide, by decide, by decide⟩

/-! ## Idempotence of the map-key normalizer -/

theorem toNat_ofNat_valid {n : Nat} (h : n.isValidChar) :
    (Char.ofNat n).toNat = n := by
  rw [Char.ofNat, dif_pos h]
  rfl

theorem toLower_eq_self_of_not {d : Char}
    (hd : ¬(d.toNat ≥ 65 ∧ d.toNat ≤ 90)) : d.toLower = d := by
  simp only [Char.toLower]
  rw [if_neg hd]

theorem toLower_toLower (c : Char) : c.toLower.toLower = c.toLower := by
  by_cases h : c.toNat ≥ 65 ∧ c.toNat ≤ 90
  · have h1 : c.toLower = Char.ofNat (c.toNat + 32) := by
      simp only [Char.toLower]
      rw [if_pos h]
    have h2 : (c.toLower).toNat = c.toNat + 32 := by
      rw [h1]
      exact toNat_ofNat_valid (Or.inl (by omega))
    exact toLower_eq_self_of_not (by omega)
  · simp [toLower_eq_self_of_not h]

theorem jsToLower_idem (c : Char) : jsToLower (jsToLower c) = jsToLower c :=
  toLower_toLower c

theorem collapseWsAux_cons_ws_true {c : Char} (rest : List Char)
    (hc : isJsWhitespace c = true) :
    collapseWsAux true (c :: rest) = collapseWsAux true rest := by
  simp [collapseWsAux, hc]

theorem collapseWsAux_cons_ws_false {c : Char} (rest : List Char)
    (hc : isJsWhitespace c = true) :
    collapseWsAux false (c :: rest) = ' ' :: collapseWsAux true rest := by
  simp [collapseWsAux, hc]

theorem collapseWsAux_cons_not_ws (b : Bool) {c : Char} (rest : List Char)
    (hc : ¬isJsWhitespace c = true) :
    collapseWsAux b (c :: rest) = c :: collapseWsAux false rest := by
  cases b <;> simp [collapseWsAux, hc]

theorem mem_collapseWsAux {c : Char} :
    ∀ {b : Bool} {l : List Char}, c ∈ collapseWsAux b l → c = ' ' ∨ c ∈ l := by
  intro b l
  induction l generalizing b with
  | nil => intro hc; simp [collapseWsAux] at hc
  | cons d rest ih =>
    intro hc
    by_cases hd : isJsWhitespace d = true
    · cases b with
      | true =>
        simp only [collapseWsAux, hd, if_true] at hc
        rcases ih hc with h | h
        · exact Or.inl h
        · exact Or.inr (List.mem_cons_of_mem _ h)
      | false =>
        simp only [collapseWsAux, hd, if_true] at hc
        rcases List.mem_cons.mp hc with h | h
        · exact Or.inl h
        · rcases ih h with h' | h'
          · exact Or.inl h'
          · exact Or.inr (List.mem_cons_of_mem _ h')
    · simp only [collapseWsAux, hd] at hc
      rcases List.mem_cons.mp hc with h | h
      · exact Or.inr (by simp [h])
      · rcases ih h with h' | h'
        · exact Or.inl h'
        · exact Or.inr (List.mem_cons_of_mem _ h')

theorem ws_mem_collapseWsAux {c : Char} :
    ∀ {b : Bool} {l : List Char}, c ∈ collapseWsAux b l →
      isJsWhitespace c = true → c = ' ' := by
  intro b l
  induction l generalizing b with
  | nil => intro hc; simp [collapseWsAux] at hc
  | cons d rest ih =>
    intro hc hws
    by_cases hd : isJsWhitespace d = true
    · cases b with
      | true =>
        simp only [collapseWsAux, hd, if_true] at hc
        exact ih hc hws
      | false =>
        simp only [collapseWsAux, hd, if_true] at hc
        rcases List.mem_cons.mp hc with h | h
        · exact h
        · exact ih h hws
    · simp only [collapseWsAux, hd] at hc
      rcases List.mem_cons.mp hc with h | h
      · rw [h] at hws
        exact absurd hws (by simp [hd])
      · exact ih h hws

theorem head?_collapseWsAux_true :
    ∀ {l : List Char} {d : Char}, (collapseWsAux true l).head? = some d →
      isJsWhitespace d = false := by
  intro l
  induction l with
  | nil => intro d hd; simp [collapseWsAux] at hd
  | cons c rest ih =>
    intro d hd
    by_cases hc : isJsWhitespace c = true
    · rw [collapseWsAux_cons_ws_true rest hc] at hd
      exact ih hd
    · rw [collapseWsAux_cons_not_ws true rest hc, List.head?_cons,
        Option.some.injEq] at hd
      rw [← hd]
      simpa using hc

theorem chain'_collapseWsAux :
    ∀ (b : Bool) (l : List Char), (collapseWsAux b l).Chain'
      (fun a c => ¬(isJsWhitespace a = true ∧ isJsWhitespace c = true)) := by
  intro b l
  induction l generalizing b with
  | nil => simp [collapseWsAux]
  | cons c rest ih =>
    by_cases hc : isJsWhitespace c = true
    · cases b with
      | true =>
        rw [collapseWsAux_cons_ws_true rest hc]
        exact ih true
      | false =>
        rw [collapseWsAux_cons_ws_false rest hc, List.chain'_cons']
        refine ⟨?_, ih true⟩
        intro y hy hcontra
        rw [head?_collapseWsAux_true hy] at hcontra
        exact absurd hcontra.2 (by simp)
    · rw [collapseWsAux_cons_not_ws b rest hc, List.chain'_cons']
      refine ⟨?_, ih false⟩
      intro y hy hcontra
      exact absurd hcontra.1 (by simp [hc])

theorem collapseWsAux_true_eq_false {l : List Char}
    (h : ∀ d ∈ l.head?, isJsWhitespace d = false) :
    collapseWsAux true l = collapseWsAux false l := by
  cases l with
  | nil => rfl
  | cons c rest =>
    have hc := h c rfl
    simp [collapseWsAux, hc]

theorem collapseWs_eq_self :
    ∀ (l : List Char),
      (∀ c ∈ l, isJsWhitespace c = true → c = ' ') →
      l.Chain' (fun a c => ¬(isJsWhitespace a = true ∧ isJsWhitespace c = true)) →
      collapseWs l = l := by
  intro l
  induction l with
  | nil => intro _ _; rfl
  | cons c rest ih =>
    intro hsp hch
    rw [List.chain'_cons'] at hch
    by_cases hc : isJsWhitespace c = true
    · have hcsp : c = ' ' := hsp c (by simp) hc
      have hhead : ∀ d ∈ rest.head?, isJsWhitespace d = false := by
        intro d hd
        have hrel := hch.1 d hd
        rcases Bool.eq_false_or_eq_true (isJsWhitespace d) with h | h
        · exact absurd ⟨hc, h⟩ hrel
        · exact h
      have hrest : collapseWs rest = rest :=
        ih (fun x hx => hsp x (List.mem_cons_of_mem _ hx)) hch.2
      show collapseWsAux false (c :: rest) = c :: rest
      rw [collapseWsAux_cons_ws_false rest hc, collapseWsAux_true_eq_false hhead,
        hcsp]
      show ' ' :: collapseWs rest = ' ' :: rest
      rw [hrest]
    · have hrest : collapseWs rest = rest :=
        ih (fun x hx => hsp x (List.mem_cons_of_mem _ hx)) hch.2
      show collapseWsAux false (c :: rest) = c :: rest
      rw [collapseWsAux_cons_not_ws false rest hc]
      show c :: collapseWs rest = c :: rest
      rw [hrest]

theorem trimWs_subset {l : List Char} : trimWs l ⊆ l := by
  intro c hc
  unfold trimWs at hc
  rw [List.mem_reverse] at hc
  have hc2 := (List.dropWhile_sublist _).subset hc
  rw [List.mem_reverse] at hc2
  exact (List.dropWhile_sublist _).subset hc2

theorem trimWs_eq_rdropWhile (l : List Char) :
    trimWs l = List.rdropWhile isJsWhitespace (l.dropWhile isJsWhitespace) := rfl

theorem dropWhile_eq_self_of_head? {α : Type} {p : α → Bool} {l : List α}
    (h : ∀ d ∈ l.head?, p d = false) : l.dropWhile p = l := by
  cases l with
  | nil => rfl
  | cons x xs =>
    have hx := h x rfl
    simp [List.dropWhile_cons, hx]

theorem head?_dropWhile_false {α : Type} {p : α → Bool} {l : List α} :
    ∀ d ∈ (l.dropWhile p).head?, p d = false := by
  intro d hd
  have hmatch := List.head?_dropWhile_not p l
  rw [hd] at hmatch
  exact hmatch

theorem head?_of_isPrefix {α : Type} {y X : List α} (h : y <+: X) (hy : y ≠ []) :
    X.head? = y.head? := by
  obtain ⟨t, rfl⟩ := h
  cases y with
  | nil => exact absurd rfl hy
  | cons a y' => rfl

theorem trimWs_trimWs (l : List Char) : trimWs (trimWs l) = trimWs l := by
  have step1 : (trimWs l).dropWhile isJsWhitespace = trimWs l := by
    apply dropWhile_eq_self_of_head?
    intro d hd
    have hne : trimWs l ≠ [] := by
      intro hcontra
      rw [hcontra] at hd
      simp at hd
    have hpre : trimWs l <+: (l.dropWhile isJsWhitespace) := by
      rw [trimWs_eq_rdropWhile]
      exact List.rdropWhile_prefix _ _
    have hhead : (l.dropWhile isJsWhitespace).head? = (trimWs l).head? :=
      head?_of_isPrefix hpre hne
    exact head?_dropWhile_false d (by rw [hhead]; exact hd)
  rw [trimWs_eq_rdropWhile, step1, trimWs_eq_rdropWhile l]
  exact List.rdropWhile_idempotent _ _

theorem chain'_of_isPrefix {α : Type} {R : α → α → Prop} {y X : List α}
    (h : y <+: X) (hch : X.Chain' R) : y.Chain' R := by
  obtain ⟨t, rfl⟩ := h
  exact (List.chain'_append.mp hch).1

theorem chain'_of_isSuffix {α : Type} {R : α → α → Prop} {y X : List α}
    (h : y <:+ X) (hch : X.Chain' R) : y.Chain' R := by
  obtain ⟨t, rfl⟩ := h
  exact (List.chain'_append.mp hch).2.1

theorem collapseWs_trimWs_collapseWs (m : List Char) :
    collapseWs (trimWs (collapseWs m)) = trimWs (collapseWs m) := by
  apply collapseWs_eq_self
  · intro c hc hws
    exact ws_mem_collapseWsAux (trimWs_subset hc) hws
  · have hX : (collapseWs m).Chain'
        (fun a c => ¬(isJsWhitespace a = true ∧ isJsWhitespace c = true)) :=
      chain'_collapseWsAux false m
    have hdrop : ((collapseWs m).dropWhile isJsWhitespace).Chain'
        (fun a c => ¬(isJsWhitespace a = true ∧ isJsWhitespace c = true)) :=
      chain'_of_isSuffix (List.dropWhile_suffix _) hX
    rw [trimWs_eq_rdropWhile]
    exact chain'_of_isPrefix (List.rdropWhile_prefix _ _) hdrop

/-- C9: the map-key normalizer is idempotent — normalizing an
already-normalized key changes nothing. -/
theorem nameToKey_idempotent (s : String) :
    nameToKey (nameToKey s) = nameToKey s := by
  by_cases hs : s = ""
  · rw [hs]
    decide
  · have hkey : nameToKey s = ⟨trimWs (collapseWs (s.data.map jsToLower))⟩ := by
      rw [nameToKey, if_neg hs]
    rw [hkey]
    by_cases hr : trimWs (collapseWs (s.data.map jsToLower)) = []
    · rw [hr]
      decide
    · have hrs : (⟨trimWs (collapseWs (s.data.map jsToLower))⟩ : String) ≠ "" := by
        intro hcontra
        exact hr (congrArg String.data hcontra)
      rw [nameToKey, if_neg hrs]
      have hmap : (trimWs (collapseWs (s.data.map jsToLower))).map jsToLower =
          trimWs (collapseWs (s.data.map jsToLower)) := by
        have hfix : ∀ c ∈ trimWs (collapseWs (s.data.map jsToLower)),
            jsToLower c = c := by
          intro c hc
          rcases mem_collapseWsAux (trimWs_subset hc) with hsp | hm
          · rw [hsp]
            decide
          · rcases List.mem_map.mp hm with ⟨d, _, rfl⟩
            exact jsToLower_idem d
        calc (trimWs (collapseWs (s.data.map jsToLower))).map jsToLower
            = (trimWs (collapseWs (s.data.map jsToLower))).map id :=
              List.map_congr_left hfix
          _ = trimWs (collapseWs (s.data.map jsToLower)) := List.map_id _
      show (⟨trimWs (collapseWs ((trimWs (collapseWs (s.data.map jsToLower))).map
        jsToLower))⟩ : String) = ⟨trimWs (collapseWs (s.data.map jsToLower))⟩
      rw [hmap, collapseWs_trimWs_collapseWs, trimWs_trimWs]

end WitnessWitness
